import Mathlib

/-!
Verification development for the Runn MCP server / billable-hours reporter
(`runn_reports.py` and `mcp_runn_server.py`).

The Python code is shallowly embedded: records are structures holding the
fields the code reads, dates are lexicographically ordered (year, month, day)
triples, Python `float` accumulation is modelled with exact rationals, the
paginated upstream service is modelled as the finite list of pages it returns
in sequence, and functions that can raise return `Except`.
-/

namespace Runn

/-! ## String primitives

Python string operations used by the code, re-implemented over `List Char`
so that they evaluate by kernel reduction: `str.upper()`, `str.strip()`,
and the `in` substring test. -/

/-- ASCII uppercase of one character, as Python `str.upper` acts on ASCII. -/
def charUpper (c : Char) : Char := c.toUpper

/-- Python `str.upper()` (ASCII portion). -/
def pyUpper (s : String) : String := ⟨s.data.map charUpper⟩

/-- Whitespace characters stripped by Python `str.strip()` (ASCII portion). -/
def isSpaceChar (c : Char) : Bool := c == ' ' || c == '\t' || c == '\n' || c == '\r'

/-- Drop leading and trailing whitespace from a character list. -/
def trimList (l : List Char) : List Char :=
  (((l.dropWhile isSpaceChar).reverse).dropWhile isSpaceChar).reverse

/-- Python `str.strip()` with no argument (whitespace strip). -/
def pyStrip (s : String) : String := ⟨trimList s.data⟩

/-- Substring containment, Python `needle in hay`. -/
def containsSub (hay needle : List Char) : Bool :=
  match hay with
  | [] => needle.isEmpty
  | _ :: t => needle.isPrefixOf hay || containsSub t needle

/-! ## Dates

`datetime.date` values compare lexicographically by (year, month, day);
the embedding uses nested `Lex` pairs so the linear order comes from Mathlib. -/

/-- A calendar date ordered lexicographically by (year, month, day). -/
abbrev Date : Type := Lex (ℕ × Lex (ℕ × ℕ))

instance : DecidableEq (Lex (ℕ × ℕ)) :=
  fun a b => inferInstanceAs (Decidable (ofLex a = ofLex b))

instance : DecidableEq Date :=
  fun a b => inferInstanceAs (Decidable (ofLex a = ofLex b))

/-- Build a date from year, month, day. -/
def mkDate (y m d : ℕ) : Date := toLex (y, toLex (m, d))

/-- Year component of a date. -/
def dateYear (x : Date) : ℕ := (ofLex x).1

/-- Month component of a date. -/
def dateMonth (x : Date) : ℕ := (ofLex (ofLex x).2).1

/-- Day component of a date. -/
def dateDay (x : Date) : ℕ := (ofLex (ofLex x).2).2

/-- Embedding of `d.replace(day=1)` as used by the aggregator: the
first-of-month date of `x` (`month_start` in `runn_reports.py`). -/
def month_start (x : Date) : Date := mkDate (dateYear x) (dateMonth x) 1

/-! ## Cursor pagination (`RunnClient._paginate`)

The upstream service is modelled as the finite sequence of page envelopes it
returns, in order.  `paginateRun pages cursor` returns the values yielded by
the generator together with the `cursor` query parameter of each GET request
it issues (`none` = the parameter was omitted). -/

/-- A page envelope `{values: [...], nextCursor?: ...}`. -/
structure Page (α : Type) where
  values : List α
  nextCursor : Option String
deriving DecidableEq

/-- Python truthiness of the `nextCursor` field: the loop continues only when
the cursor is present and a non-empty string (`if not cursor: break`). -/
def cursorTruthy : Option String → Bool
  | none => false
  | some s => !(s == "")

/-- Embedding of the `while True` loop of `RunnClient._paginate`: consume the
pages the upstream returns in sequence, starting with cursor parameter
`cursor`; yield each page's `values` in order; after each page set the cursor
to its `nextCursor` and stop when that is absent or empty.  Returns (values
yielded, cursor parameter of each request issued). -/
def paginateRun {α : Type} : List (Page α) → Option String → List α × List (Option String)
  | [], _ => ([], [])
  | p :: rest, cursor =>
    if cursorTruthy p.nextCursor then
      let next := paginateRun rest p.nextCursor
      (p.values ++ next.1, cursor :: next.2)
    else (p.values, [cursor])

/-! ## Generic passthrough (`runn_request` tool) -/

/-- Result payload of the `runn_request` tool: a drained list of paginated
values, or the raw response of a single request. -/
inductive RRValue (α : Type) where
  | list (vs : List α)
  | raw (v : α)
deriving DecidableEq

/-- Embedding of the `runn_request` tool.  `pages` is the sequence of pages
the upstream would return to a paginated GET, `rawResp` the response of a
single non-paginated request.  Returns the result together with the number of
network requests issued. -/
def runn_request {α : Type} (method : String) (paginate : Bool)
    (pages : List (Page α)) (rawResp : α) : Except String (RRValue α) × ℕ :=
  if paginate then
    if pyUpper method ≠ "GET" then
      (Except.error "paginate=True only supports GET requests.", 0)
    else
      (Except.ok (RRValue.list (paginateRun pages none).1), (paginateRun pages none).2.length)
  else (Except.ok (RRValue.raw rawResp), 1)

/-! ## Billable-hours aggregator (`build_billable_hours_report`)

An actual record as read by the aggregator: ids and a parsed date are
required (subscript access), `billableMinutes` is optional.  Python float
accumulation is modelled with exact rationals. -/

/-- An actual (time entry) record with the fields the aggregator reads. -/
structure Actual where
  projectId : ℤ
  personId : ℤ
  date : Date
  billableMinutes : Option ℚ
deriving DecidableEq

/-- Embedding of `actual.get("billableMinutes") or 0`: the minutes used for
the record, with an absent (or zero, hence falsy) field becoming 0. -/
def effMinutes (a : Actual) : ℚ := a.billableMinutes.getD 0

/-- The optional inclusive [start, end] window test of the aggregator loop:
true unless `start` is given and the date is before it, or `end` is given and
the date is after it. -/
def inWindow (startO endO : Option Date) (d : Date) : Bool :=
  (match startO with | some s => !decide (d < s) | none => true)
  && (match endO with | some e => !decide (e < d) | none => true)

/-- A record is accumulated exactly when its date passes the window and its
effective minutes are strictly positive (`if minutes <= 0: continue`). -/
def qualifies (startO endO : Option Date) (a : Actual) : Bool :=
  inWindow startO endO a.date && decide (0 < effMinutes a)

/-- Aggregation key `(actual["projectId"], actual["personId"],
date.replace(day=1))`. -/
abbrev BKey : Type := ℤ × ℤ × Date

/-- The aggregation key of an actual record. -/
def actual_key (a : Actual) : BKey := (a.projectId, a.personId, month_start a.date)

/-- First-match lookup in an association list, as Python dict lookup (the
insertion operations below keep keys unique). -/
def lookupAssoc {α β : Type} [DecidableEq α] : List (α × β) → α → Option β
  | [], _ => none
  | (k0, v0) :: rest, k => if k0 = k then some v0 else lookupAssoc rest k

/-- Python dict insert/overwrite preserving insertion order: replace the value
at an existing key in place, else append at the end. -/
def insertAssoc {α β : Type} [DecidableEq α] : List (α × β) → α → β → List (α × β)
  | [], k, v => [(k, v)]
  | (k0, v0) :: rest, k, v =>
    if k0 = k then (k0, v) :: rest else (k0, v0) :: insertAssoc rest k v

/-- Embedding of `buckets[key] += minutes / 60.0` on a `defaultdict(float)`:
add `v` to the value at `k`, appending a fresh entry when the key is new. -/
def addToBucket : List (BKey × ℚ) → BKey → ℚ → List (BKey × ℚ)
  | [], k, v => [(k, v)]
  | (k0, v0) :: rest, k, v =>
    if k0 = k then (k0, v0 + v) :: rest else (k0, v0) :: addToBucket rest k v

/-- One iteration of the aggregator loop on one actual record. -/
def bucketStep (startO endO : Option Date) (bs : List (BKey × ℚ)) (a : Actual) :
    List (BKey × ℚ) :=
  if qualifies startO endO a then addToBucket bs (actual_key a) (effMinutes a / 60) else bs

/-- The bucket map produced by streaming all actuals through the loop. -/
def buildBuckets (startO endO : Option Date) (actuals : List Actual) : List (BKey × ℚ) :=
  actuals.foldl (bucketStep startO endO) []

/-- Round-half-to-even to an integer, the semantics of Python `round`. -/
def roundHalfEven (q : ℚ) : ℤ :=
  if q - ⌊q⌋ < 1 / 2 then ⌊q⌋
  else if (1 : ℚ) / 2 < q - ⌊q⌋ then ⌊q⌋ + 1
  else if ⌊q⌋ % 2 = 0 then ⌊q⌋ else ⌊q⌋ + 1

/-- Python `round(hours, 2)`: round half to even at the second decimal. -/
def pyRound2 (q : ℚ) : ℚ := (roundHalfEven (q * 100) : ℚ) / 100

/-- The sort key of the final `sorted(...)` call:
`(project id, month, person id)`, compared lexicographically. -/
def sort_key (k : BKey) : Lex (ℤ × Lex (Date × ℤ)) := toLex (k.1, toLex (k.2.2, k.2.1))

/-- Ordering of bucket entries used by the report's `sorted(...)` call. -/
def bucketRel (x y : BKey × ℚ) : Prop := sort_key x.1 ≤ sort_key y.1

instance : DecidableRel bucketRel :=
  fun x y => inferInstanceAs (Decidable (sort_key x.1 ≤ sort_key y.1))

instance : IsTotal (BKey × ℚ) bucketRel :=
  ⟨fun a b => le_total (sort_key a.1) (sort_key b.1)⟩

instance : IsTrans (BKey × ℚ) bucketRel :=
  ⟨fun _ _ _ h1 h2 => le_trans h1 h2⟩

/-- An emitted report row. -/
structure Row where
  project_id : ℤ
  project_name : String
  person_id : ℤ
  person_name : String
  month : Date
  billable_hours : ℚ
deriving DecidableEq

/-- The aggregation key a row was emitted for. -/
def row_key (r : Row) : BKey := (r.project_id, r.person_id, r.month)

/-- Emission of one row from a bucket entry, decorating with the name
lookups and rounding the accumulated hours to 2 decimals. -/
def mkRow (projects people : List (ℤ × String)) (kv : BKey × ℚ) : Row :=
  { project_id := kv.1.1
    project_name := (lookupAssoc projects kv.1.1).getD ("Project " ++ toString kv.1.1)
    person_id := kv.1.2.1
    person_name := (lookupAssoc people kv.1.2.1).getD ("Person " ++ toString kv.1.2.1)
    month := kv.1.2.2
    billable_hours := pyRound2 kv.2 }

/-- Embedding of `build_billable_hours_report`: stream the actuals through
the bucket loop, sort the buckets by (project id, month, person id), and emit
one row per bucket.  The `people` and `projects` association lists stand for
the id-to-name maps the client's lookup builders return. -/
def build_billable_hours_report (people projects : List (ℤ × String))
    (actuals : List Actual) (startO endO : Option Date) : List Row :=
  (List.insertionSort bucketRel (buildBuckets startO endO actuals)).map
    (mkRow projects people)

/-- The exact (unrounded) total for key `k`: the sum of `minutes / 60` over
those records that qualify (window and strictly positive minutes) and share
the key. -/
def contrib (startO endO : Option Date) (k : BKey) (actuals : List Actual) : ℚ :=
  ((actuals.filter (fun a => qualifies startO endO a && decide (actual_key a = k))).map
    (fun a => effMinutes a / 60)).sum

/-- Whether at least one record qualifies for key `k`. -/
def hasQual (startO endO : Option Date) (k : BKey) (actuals : List Actual) : Bool :=
  actuals.any (fun a => qualifies startO endO a && decide (actual_key a = k))

/-! ## People lookup builder (`RunnClient.people_lookup`) -/

/-- A person record with the fields `people_lookup` reads.  The name parts
default to `""` when absent (`person.get(..., '')`); `email` is read by
subscript in the blank-name fallback. -/
structure Person where
  id : ℤ
  firstName : Option String
  lastName : Option String
  email : String
deriving DecidableEq

/-- The display name of a person:
`f"{first.strip()} {last.strip()}".strip() or person["email"]`. -/
def display_name (p : Person) : String :=
  let full := pyStrip (pyStrip (p.firstName.getD "") ++ " " ++ pyStrip (p.lastName.getD ""))
  if full = "" then p.email else full

/-- Embedding of `RunnClient.people_lookup`: the dict comprehension over the
fully drained people stream, mapping each person's id to their display name. -/
def people_lookup (people : List Person) : List (ℤ × String) :=
  people.foldl (fun m p => insertAssoc m p.id (display_name p)) []

/-! ## Query/filter layer (`mcp_runn_server.py`) -/

/-- Embedding of `_in_range`: a missing date never matches; otherwise the
date must lie in the inclusive window, with absent bounds unbounded. -/
def in_range (dateValue startO endO : Option Date) : Bool :=
  match dateValue with
  | none => false
  | some d =>
    (match startO with | some s => !decide (d < s) | none => true)
    && (match endO with | some e => !decide (e < d) | none => true)

/-- The two bound checks shared by every path of `_range_overlaps` once both
record bounds are known: fail when the record ends before the query starts or
starts after the query ends. -/
def overlapCheck (s e : Date) (startB endB : Option Date) : Bool :=
  !(match startB with | some b => decide (e < b) | none => false)
  && !(match endB with | some b => decide (b < s) | none => false)

/-- Embedding of `_range_overlaps`: both record bounds absent is an
unconditional match; a single absent record bound is replaced by the other
bound; then the two interval checks run. -/
def range_overlaps (startA endA startB endB : Option Date) : Bool :=
  match startA, endA with
  | none, none => true
  | some s, none => overlapCheck s s startB endB
  | none, some e => overlapCheck e e startB endB
  | some s, some e => overlapCheck s e startB endB

/-- The refinement reading of C4, written from the spec's words: the record
interval [s, e] overlaps the query window when some day lies in both, where
an absent query bound is unbounded. -/
def overlapsSpec (s e : Date) (startB endB : Option Date) : Prop :=
  ∃ d : Date, s ≤ d ∧ d ≤ e ∧ (∀ b ∈ startB, b ≤ d) ∧ (∀ b ∈ endB, d ≤ b)

/-- An assignment record with the fields the assignment filters read; the id
fields are absent-able (`a.get(...)`), dates are the parsed optional bounds. -/
structure Assignment where
  personId : Option ℤ
  projectId : Option ℤ
  roleId : Option ℤ
  isActive : Bool
  startDate : Option Date
  endDate : Option Date
deriving DecidableEq

/-- Embedding of the `list_assignments_by_person` tool over the fully drained
assignment collection (dates already parsed): keep records for the person,
optionally only active ones, and when either query bound is present only
those whose interval passes `_range_overlaps`. -/
def list_assignments_by_person (assignments : List Assignment) (person_id : ℤ)
    (startO endO : Option Date) (active_only : Bool) : List Assignment :=
  assignments.filter (fun a =>
    decide (a.personId = some person_id)
    && (!active_only || a.isActive)
    && (if startO.isSome || endO.isSome
        then range_overlaps a.startDate a.endDate startO endO
        else true))

/-! ## Date parsing and the point-in-time actual filters -/

/-- Numeric value of a digit character. -/
def digitVal (c : Char) : ℕ := c.toNat - '0'.toNat

/-- Number of days in a month with Gregorian leap years. -/
def daysInMonth (y m : ℕ) : ℕ :=
  if m = 2 then (if (y % 4 = 0 ∧ y % 100 ≠ 0) ∨ y % 400 = 0 then 29 else 28)
  else if m = 4 ∨ m = 6 ∨ m = 9 ∨ m = 11 then 30 else 31

/-- Modelled from the spec: `datetime.date.fromisoformat`, which is not part
of this repository.  Per the spec it accepts exactly ISO-8601 calendar-date
strings `YYYY-MM-DD` (failing with `InvalidArgument` otherwise), which is
modelled as ten characters, digits and dashes in place, with a valid
month and day-of-month. -/
def fromisoformat (s : String) : Except String Date :=
  match s.data with
  | [y1, y2, y3, y4, h1, m1, m2, h2, d1, d2] =>
    if y1.isDigit ∧ y2.isDigit ∧ y3.isDigit ∧ y4.isDigit ∧ h1 = '-'
        ∧ m1.isDigit ∧ m2.isDigit ∧ h2 = '-' ∧ d1.isDigit ∧ d2.isDigit then
      let y := ((digitVal y1 * 10 + digitVal y2) * 10 + digitVal y3) * 10 + digitVal y4
      let m := digitVal m1 * 10 + digitVal m2
      let d := digitVal d1 * 10 + digitVal d2
      if 1 ≤ m ∧ m ≤ 12 ∧ 1 ≤ d ∧ d ≤ daysInMonth y m then Except.ok (mkDate y m d)
      else Except.error ("Invalid isoformat string: " ++ s)
    else Except.error ("Invalid isoformat string: " ++ s)
  | _ => Except.error ("Invalid isoformat string: " ++ s)

/-- Embedding of `parse_date` in `runn_reports.py`:
`dt.date.fromisoformat(value) if value else None`; a falsy (absent or empty)
value parses to no date, a malformed non-empty value raises. -/
def parse_date (value : Option String) : Except String (Option Date) :=
  match value with
  | none => Except.ok none
  | some s => if s = "" then Except.ok none else (fromisoformat s).map some

/-- Embedding of `_to_date` in `mcp_runn_server.py`:
`parse_date(value) if value else None`. -/
def to_date (value : Option String) : Except String (Option Date) :=
  match value with
  | none => Except.ok none
  | some s => if s = "" then Except.ok none else parse_date (some s)

/-- An actual record as the query layer reads it: absent-able ids and the raw
optional date string. -/
structure ActualRec where
  personId : Option ℤ
  projectId : Option ℤ
  roleId : Option ℤ
  date : Option String
deriving DecidableEq

/-- The record loop of `list_actuals_by_date_range`: skip records failing the
person or project filter (`is not None` comparisons) before touching the
date; then parse the record's date (which can raise) and keep the record when
`_in_range` accepts it. -/
def actuals_range_filter (startD endD : Option Date) (person_id project_id : Option ℤ) :
    List ActualRec → Except String (List ActualRec)
  | [] => Except.ok []
  | a :: rest =>
    if (match person_id with | some p => decide (a.personId ≠ some p) | none => false) then
      actuals_range_filter startD endD person_id project_id rest
    else if (match project_id with | some p => decide (a.projectId ≠ some p) | none => false) then
      actuals_range_filter startD endD person_id project_id rest
    else
      match to_date a.date with
      | Except.error msg => Except.error msg
      | Except.ok d =>
        match actuals_range_filter startD endD person_id project_id rest with
        | Except.error msg => Except.error msg
        | Except.ok tail =>
          if in_range d startD endD then Except.ok (a :: tail) else Except.ok tail

/-- Embedding of the `list_actuals_by_date_range` tool: parse the two bound
strings with `_to_date` (a raise propagates), then run the record loop over
the drained actuals. -/
def list_actuals_by_date_range (actuals : List ActualRec) (start stop : String)
    (person_id project_id : Option ℤ) : Except String (List ActualRec) :=
  match to_date (some start) with
  | Except.error msg => Except.error msg
  | Except.ok startD =>
    match to_date (some stop) with
    | Except.error msg => Except.error msg
    | Except.ok endD => actuals_range_filter startD endD person_id project_id actuals

/-! ## Response handling of `RunnClient.request` -/

/-- A 2xx HTTP response as `RunnClient.request` sees it after
`raise_for_status`: status code, `content-type` header (defaulted to `""`),
the parsed JSON body (abstracted as `α`), and the raw text. -/
structure HttpResponse (α : Type) where
  status_code : ℕ
  content_type : String
  body_json : α
  text : String

/-- The three shapes a successful `RunnClient.request` returns:
`{status_code}`, the parsed JSON value, or `{status_code, text}`. -/
inductive ReqResult (α : Type) where
  | statusOnly (status_code : ℕ)
  | jsonValue (v : α)
  | statusText (status_code : ℕ) (text : String)

/-- Embedding of the response-handling tail of `RunnClient.request` (after
`raise_for_status`, so on a successful response): 204 first, then the
JSON content-type test, then the text fallback. -/
def request_response {α : Type} (resp : HttpResponse α) : ReqResult α :=
  if resp.status_code = 204 then ReqResult.statusOnly resp.status_code
  else if containsSub resp.content_type.data "application/json".data then
    ReqResult.jsonValue resp.body_json
  else ReqResult.statusText resp.status_code resp.text

/-! ## The billable_hours tool's post-hoc row filter -/

/-- Python truthiness of an optional integer argument: present and nonzero. -/
def intTruthy : Option ℤ → Bool
  | none => false
  | some n => decide (n ≠ 0)

/-- The `matches` closure of the `billable_hours` tool: reject a row when a
truthy `project_id` argument differs from the row's project id, likewise for
`person_id`. -/
def billable_hours_matches (project_id person_id : Option ℤ) (r : Row) : Bool :=
  !(intTruthy project_id && decide (some r.project_id ≠ project_id))
  && !(intTruthy person_id && decide (some r.person_id ≠ person_id))

/-- The post-hoc row filter of the `billable_hours` tool applied to the
already-aggregated rows. -/
def billable_hours_tool_filter (rows : List Row) (project_id person_id : Option ℤ) :
    List Row :=
  rows.filter (billable_hours_matches project_id person_id)

/-! ## Theorems: pagination (C2) -/

theorem paginateRun_front_aux {α : Type} (front : List (Page α)) (last : Page α)
    (hfront : ∀ p ∈ front, cursorTruthy p.nextCursor = true)
    (hlast : cursorTruthy last.nextCursor = false) :
    ∀ c, paginateRun (front ++ [last]) c
      = (((front ++ [last]).map Page.values).flatten, c :: front.map Page.nextCursor) := by
  induction front with
  | nil =>
    intro c
    simp [paginateRun, hlast]
  | cons p rest ih =>
    intro c
    have hp : cursorTruthy p.nextCursor = true := hfront p (by simp)
    have hrest : ∀ q ∈ rest, cursorTruthy q.nextCursor = true :=
      fun q hq => hfront q (by simp [hq])
    simp [paginateRun, hp, ih hrest]

/-- C2. Over any finite run of pages in which every page but the last carries
a truthy `nextCursor` and the last does not, `_paginate` yields exactly the
concatenation of the pages' `values` in page order, issues exactly one request
per page, omits the cursor parameter on the first request, and carries each
previous page's `nextCursor` on each subsequent request; it stops exactly at
the first page whose `nextCursor` is absent, null, or empty. -/
theorem paginate_collects {α : Type} (front : List (Page α)) (last : Page α)
    (hfront : ∀ p ∈ front, cursorTruthy p.nextCursor = true)
    (hlast : cursorTruthy last.nextCursor = false) :
    paginateRun (front ++ [last]) none
      = (((front ++ [last]).map Page.values).flatten, none :: front.map Page.nextCursor)
    ∧ (paginateRun (front ++ [last]) none).2.length = (front ++ [last]).length := by
  constructor
  · exact paginateRun_front_aux front last hfront hlast none
  · rw [paginateRun_front_aux front last hfront hlast none]
    simp

/-- C2 witness: pages P1 (values=[a,b], nextCursor="c2") and P2 (values=[c],
nextCursor=null) yield exactly [a,b,c] with exactly two requests, the first
omitting the cursor and the second carrying cursor="c2". -/
theorem paginate_collects_witness :
    paginateRun [Page.mk ["a", "b"] (some "c2"), Page.mk ["c"] none] none
      = (["a", "b", "c"], [none, some "c2"]) := by
  have h := paginate_collects [Page.mk ["a", "b"] (some "c2")] (Page.mk ["c"] none)
    (by decide) (by decide)
  simpa using h.1

/-! ## Theorems: runn_request pagination guard (C6) -/

/-- C6. With `paginate=True`, a method whose upper-casing is not "GET" fails
with the `InvalidArgument` error before any network request is issued (zero
requests), while method GET returns the fully drained paginated value list. -/
theorem runn_request_paginate_guard {α : Type} (method : String)
    (pages : List (Page α)) (rawResp : α) :
    (pyUpper method ≠ "GET" →
      runn_request method true pages rawResp
        = (Except.error "paginate=True only supports GET requests.", 0))
    ∧ (pyUpper method = "GET" →
      (runn_request method true pages rawResp).1
        = Except.ok (RRValue.list (paginateRun pages none).1)) := by
  constructor
  · intro h
    simp [runn_request, h]
  · intro h
    simp [runn_request, h]

/-- C6 witness: `runn_request("POST", paginate=True)` errors with zero
requests issued, and `runn_request("get", paginate=True)` over an upstream
with a single final page returns the drained value list. -/
theorem runn_request_paginate_guard_witness :
    runn_request "POST" true [Page.mk [(7 : ℕ)] none] 0
      = (Except.error "paginate=True only supports GET requests.", 0)
    ∧ (runn_request "get" true [Page.mk [(7 : ℕ)] none] 0).1
      = Except.ok (RRValue.list [7]) := by
  refine ⟨(runn_request_paginate_guard "POST" [Page.mk [(7 : ℕ)] none] 0).1 (by decide), ?_⟩
  have h := (runn_request_paginate_guard "get" [Page.mk [(7 : ℕ)] none] 0).2 (by decide)
  simpa [paginateRun] using h

/-! ## Helper lemmas on the bucket map -/

theorem lookupAssoc_addToBucket_self (bs : List (BKey × ℚ)) (k : BKey) (v : ℚ) :
    lookupAssoc (addToBucket bs k v) k = some ((lookupAssoc bs k).getD 0 + v) := by
  induction bs with
  | nil => simp [addToBucket, lookupAssoc]
  | cons kv rest ih =>
    rcases kv with ⟨k0, v0⟩
    by_cases h : k0 = k
    · subst h
      simp [addToBucket, lookupAssoc]
    · simp [addToBucket, lookupAssoc, h, ih]

theorem lookupAssoc_addToBucket_ne (bs : List (BKey × ℚ)) (k k2 : BKey) (v : ℚ)
    (h : k2 ≠ k) : lookupAssoc (addToBucket bs k v) k2 = lookupAssoc bs k2 := by
  induction bs with
  | nil => simp [addToBucket, lookupAssoc, Ne.symm h]
  | cons kv rest ih =>
    rcases kv with ⟨k0, v0⟩
    by_cases h0 : k0 = k
    · subst h0
      simp [addToBucket, lookupAssoc, Ne.symm h]
    · by_cases h2 : k0 = k2
      · subst h2
        simp [addToBucket, lookupAssoc, h0]
      · simp [addToBucket, lookupAssoc, h0, h2, ih]

theorem lookupAssoc_eq_none_iff {α β : Type} [DecidableEq α] (m : List (α × β)) (k : α) :
    lookupAssoc m k = none ↔ k ∉ m.map Prod.fst := by
  induction m with
  | nil => simp [lookupAssoc]
  | cons kv rest ih =>
    rcases kv with ⟨k0, v0⟩
    by_cases h : k0 = k
    · subst h
      simp [lookupAssoc]
    · simp [lookupAssoc, h, ih, Ne.symm h]

theorem keys_addToBucket (bs : List (BKey × ℚ)) (k : BKey) (v : ℚ) :
    (addToBucket bs k v).map Prod.fst
      = if k ∈ bs.map Prod.fst then bs.map Prod.fst else bs.map Prod.fst ++ [k] := by
  induction bs with
  | nil => simp [addToBucket]
  | cons kv rest ih =>
    rcases kv with ⟨k0, v0⟩
    by_cases h : k0 = k
    · subst h
      simp [addToBucket]
    · by_cases hm : k ∈ rest.map Prod.fst
      · simp [addToBucket, h, ih, hm, Ne.symm h]
      · simp [addToBucket, h, ih, hm, Ne.symm h]

theorem nodup_addToBucket (bs : List (BKey × ℚ)) (k : BKey) (v : ℚ)
    (h : (bs.map Prod.fst).Nodup) : ((addToBucket bs k v).map Prod.fst).Nodup := by
  rw [keys_addToBucket]
  by_cases hm : k ∈ bs.map Prod.fst
  · simpa [hm] using h
  · simp [hm, List.nodup_append, h]

theorem buildBuckets_keys_nodup (startO endO : Option Date) (actuals : List Actual) :
    ∀ bs : List (BKey × ℚ), (bs.map Prod.fst).Nodup →
      ((actuals.foldl (bucketStep startO endO) bs).map Prod.fst).Nodup := by
  induction actuals with
  | nil => intro bs h; simpa using h
  | cons a rest ih =>
    intro bs h
    rw [List.foldl_cons]
    apply ih
    by_cases hq : qualifies startO endO a = true
    · simpa [bucketStep, hq] using nodup_addToBucket bs (actual_key a) (effMinutes a / 60) h
    · simpa [bucketStep, hq] using h

theorem foldl_bucketStep_getD (startO endO : Option Date) (k : BKey) (actuals : List Actual) :
    ∀ bs : List (BKey × ℚ),
      (lookupAssoc (actuals.foldl (bucketStep startO endO) bs) k).getD 0
        = (lookupAssoc bs k).getD 0 + contrib startO endO k actuals := by
  induction actuals with
  | nil => intro bs; simp [contrib]
  | cons a rest ih =>
    intro bs
    rw [List.foldl_cons]
    by_cases hq : qualifies startO endO a = true
    · by_cases hk : actual_key a = k
      · have h1 : bucketStep startO endO bs a = addToBucket bs k (effMinutes a / 60) := by
          simp [bucketStep, hq, hk]
        rw [h1, ih, lookupAssoc_addToBucket_self]
        simp [contrib, List.filter_cons, hq, hk, add_assoc]
      · have h1 : bucketStep startO endO bs a
            = addToBucket bs (actual_key a) (effMinutes a / 60) := by
          simp [bucketStep, hq]
        rw [h1, ih, lookupAssoc_addToBucket_ne _ _ _ _ (fun hh => hk hh.symm)]
        simp [contrib, List.filter_cons, hq, hk]
    · have h1 : bucketStep startO endO bs a = bs := by simp [bucketStep, hq]
      rw [h1, ih]
      simp [contrib, List.filter_cons, hq]

theorem foldl_bucketStep_isSome (startO endO : Option Date) (k : BKey) (actuals : List Actual) :
    ∀ bs : List (BKey × ℚ),
      (lookupAssoc (actuals.foldl (bucketStep startO endO) bs) k).isSome
        = ((lookupAssoc bs k).isSome || hasQual startO endO k actuals) := by
  induction actuals with
  | nil => intro bs; simp [hasQual]
  | cons a rest ih =>
    intro bs
    rw [List.foldl_cons]
    by_cases hq : qualifies startO endO a = true
    · by_cases hk : actual_key a = k
      · have h1 : bucketStep startO endO bs a = addToBucket bs k (effMinutes a / 60) := by
          simp [bucketStep, hq, hk]
        rw [h1, ih, lookupAssoc_addToBucket_self]
        simp [hasQual, hq, hk]
      · have h1 : bucketStep startO endO bs a
            = addToBucket bs (actual_key a) (effMinutes a / 60) := by
          simp [bucketStep, hq]
        rw [h1, ih, lookupAssoc_addToBucket_ne _ _ _ _ (fun hh => hk hh.symm)]
        simp [hasQual, hq, hk]
    · have h1 : bucketStep startO endO bs a = bs := by simp [bucketStep, hq]
      rw [h1, ih]
      simp [hasQual, hq]

theorem filter_key_nil_of_not_mem (bs : List (BKey × ℚ)) (k : BKey)
    (h : k ∉ bs.map Prod.fst) : bs.filter (fun kv => decide (kv.1 = k)) = [] := by
  induction bs with
  | nil => rfl
  | cons kv rest ih =>
    rcases kv with ⟨k0, v0⟩
    simp only [List.map_cons, List.mem_cons, not_or] at h
    rw [List.filter_cons]
    simp [Ne.symm h.1, ih h.2]

theorem filter_key_of_nodup (bs : List (BKey × ℚ)) (k : BKey)
    (h : (bs.map Prod.fst).Nodup) :
    bs.filter (fun kv => decide (kv.1 = k))
      = (match lookupAssoc bs k with
         | some v => [(k, v)]
         | none => []) := by
  induction bs with
  | nil => rfl
  | cons kv rest ih =>
    rcases kv with ⟨k0, v0⟩
    rw [List.map_cons, List.nodup_cons] at h
    obtain ⟨hnot, hrest⟩ := h
    by_cases h0 : k0 = k
    · subst h0
      rw [List.filter_cons]
      simp [lookupAssoc, filter_key_nil_of_not_mem rest k0 hnot]
    · rw [List.filter_cons]
      simp [lookupAssoc, h0, Ne.symm h0, ih hrest]

theorem filter_comm_map {α β : Type} (f : α → β) (p : β → Bool) (l : List α) :
    (l.map f).filter p = (l.filter (fun a => p (f a))).map f := by
  induction l with
  | nil => rfl
  | cons a rest ih => cases h : p (f a) <;> simp [List.filter_cons, h, ih]

/-! ## Theorems: billable-hours aggregation (C1) -/

/-- C1. For every run of the report and every aggregation key, the emitted
rows carrying that key are: exactly one row whose `billable_hours` is the
exact sum of `minutes / 60` over the qualifying records of that key (date in
the optional inclusive window, `billableMinutes` strictly positive) rounded
to 2 decimals at emission, when at least one record qualifies; and no row at
all otherwise.  Records with absent, zero, or negative minutes are not
qualifying, so they contribute to no row. -/
theorem report_row_exact (people projects : List (ℤ × String)) (actuals : List Actual)
    (startO endO : Option Date) (k : BKey) :
    ((build_billable_hours_report people projects actuals startO endO).filter
        (fun r => decide (row_key r = k))).map Row.billable_hours
      = if hasQual startO endO k actuals
        then [pyRound2 (contrib startO endO k actuals)]
        else [] := by
  unfold build_billable_hours_report
  rw [filter_comm_map]
  have hpred : (fun kv : BKey × ℚ => decide (row_key (mkRow projects people kv) = k))
      = fun kv : BKey × ℚ => decide (kv.1 = k) := by
    funext kv
    rfl
  rw [hpred]
  have hnodup : ((buildBuckets startO endO actuals).map Prod.fst).Nodup :=
    buildBuckets_keys_nodup startO endO actuals [] (by simp)
  have hfilter := filter_key_of_nodup (buildBuckets startO endO actuals) k hnodup
  have hperm : List.Perm
      ((List.insertionSort bucketRel (buildBuckets startO endO actuals)).filter
        (fun kv => decide (kv.1 = k)))
      ((buildBuckets startO endO actuals).filter (fun kv => decide (kv.1 = k))) :=
    (List.perm_insertionSort bucketRel (buildBuckets startO endO actuals)).filter _
  have hisSome : (lookupAssoc (buildBuckets startO endO actuals) k).isSome
      = hasQual startO endO k actuals := by
    simpa [lookupAssoc] using foldl_bucketStep_isSome startO endO k actuals []
  have hgetD : (lookupAssoc (buildBuckets startO endO actuals) k).getD 0
      = contrib startO endO k actuals := by
    simpa [lookupAssoc] using foldl_bucketStep_getD startO endO k actuals []
  cases hcase : lookupAssoc (buildBuckets startO endO actuals) k with
  | none =>
    rw [hcase] at hfilter hisSome
    rw [hfilter] at hperm
    have hnil := List.Perm.eq_nil hperm
    rw [hnil]
    have hq : hasQual startO endO k actuals = false := by
      simpa using hisSome.symm
    rw [hq]
    simp
  | some v =>
    rw [hcase] at hfilter hisSome hgetD
    rw [hfilter] at hperm
    have heq := List.perm_singleton.mp hperm
    rw [heq]
    have hq : hasQual startO endO k actuals = true := hisSome.symm
    have hv : v = contrib startO endO k actuals := by simpa using hgetD
    rw [hq]
    simp [mkRow, hv]

/-! ## Theorems: report order and determinism (C3) -/

/-- Ordering of rows by the lexicographic key (project id, month, person id),
with month compared before person id. -/
def rowRel (x y : Row) : Prop := sort_key (row_key x) ≤ sort_key (row_key y)

/-- C3. The report's row list is sorted ascending by the lexicographic key
(project id, month, person id) — month before person id — and a second run
over the same frozen input is the same list (identical order and values). -/
theorem report_sorted_deterministic (people projects : List (ℤ × String))
    (actuals : List Actual) (startO endO : Option Date) :
    List.Sorted rowRel (build_billable_hours_report people projects actuals startO endO)
    ∧ build_billable_hours_report people projects actuals startO endO
      = build_billable_hours_report people projects actuals startO endO := by
  refine ⟨?_, rfl⟩
  unfold build_billable_hours_report
  have hs := List.sorted_insertionSort bucketRel (buildBuckets startO endO actuals)
  unfold List.Sorted at hs ⊢
  rw [List.pairwise_map]
  exact hs.imp (fun h => h)

/-! ## Theorems: assignment interval filter (C4) -/

/-- C4. The assignment date filter is interval overlap: for a record with
both bounds (and a well-formed record interval and query window), the boolean
check holds iff some day lies in both intervals; a record with only a start
date is filtered exactly as the single-day interval at that date, and
symmetrically for end-only; a query with neither bound matches every
assignment regardless of its interval; and concretely, [2025-01-10,
2025-01-20] overlaps the window [2025-01-15, 2025-02-01] but not
[2025-02-01, 2025-03-01]. -/
theorem assignment_interval_filter :
    (∀ s e startB endB, s ≤ e → (∀ b b2, startB = some b → endB = some b2 → b ≤ b2) →
      (range_overlaps (some s) (some e) startB endB = true ↔ overlapsSpec s e startB endB))
    ∧ (∀ s startB endB, range_overlaps (some s) none startB endB
        = range_overlaps (some s) (some s) startB endB)
    ∧ (∀ e startB endB, range_overlaps none (some e) startB endB
        = range_overlaps (some e) (some e) startB endB)
    ∧ (∀ assignments pid activeOnly,
        list_assignments_by_person assignments pid none none activeOnly
          = assignments.filter (fun a =>
              decide (a.personId = some pid) && (!activeOnly || a.isActive)))
    ∧ range_overlaps (some (mkDate 2025 1 10)) (some (mkDate 2025 1 20))
        (some (mkDate 2025 1 15)) (some (mkDate 2025 2 1)) = true
    ∧ range_overlaps (some (mkDate 2025 1 10)) (some (mkDate 2025 1 20))
        (some (mkDate 2025 2 1)) (some (mkDate 2025 3 1)) = false := by
  refine ⟨?_, fun _ _ _ => rfl, fun _ _ _ => rfl, ?_, by decide, by decide⟩
  · intro s e startB endB hse hwf
    constructor
    · intro h
      unfold range_overlaps overlapCheck at h
      rw [Bool.and_eq_true] at h
      obtain ⟨h1, h2⟩ := h
      cases startB with
      | none =>
        cases endB with
        | none => exact ⟨s, le_refl s, hse, by simp, by simp⟩
        | some b2 =>
          have hs2 : s ≤ b2 := by
            by_contra hc
            push_neg at hc
            simp [hc] at h2
          exact ⟨s, le_refl s, hse, by simp, by simpa using hs2⟩
      | some b =>
        have hbe : b ≤ e := by
          by_contra hc
          push_neg at hc
          simp [hc] at h1
        cases endB with
        | none =>
          exact ⟨max s b, le_max_left s b, max_le hse hbe,
            by simp, by simp⟩
        | some b2 =>
          have hs2 : s ≤ b2 := by
            by_contra hc
            push_neg at hc
            simp [hc] at h2
          have hb2 : b ≤ b2 := hwf b b2 rfl rfl
          exact ⟨max s b, le_max_left s b, max_le hse hbe,
            by simp, by simpa using max_le hs2 hb2⟩
    · rintro ⟨d, hd1, hd2, hd3, hd4⟩
      unfold range_overlaps overlapCheck
      rw [Bool.and_eq_true]
      constructor
      · cases startB with
        | none => simp
        | some b =>
          have hb : b ≤ d := hd3 b rfl
          simp only [Bool.not_eq_true', decide_eq_false_iff_not, not_lt]
          exact le_trans hb hd2
      · cases endB with
        | none => simp
        | some b2 =>
          have hb2 : d ≤ b2 := hd4 b2 rfl
          simp only [Bool.not_eq_true', decide_eq_false_iff_not, not_lt]
          exact le_trans hd1 hb2
  · intro assignments pid activeOnly
    unfold list_assignments_by_person
    simp

/-- C4 witness: for the concrete record interval [2025-01-10, 2025-01-20] and
window [2025-01-15, 2025-02-01], the boolean filter matches the overlap
predicate (and holds). -/
theorem assignment_interval_filter_witness :
    range_overlaps (some (mkDate 2025 1 10)) (some (mkDate 2025 1 20))
        (some (mkDate 2025 1 15)) (some (mkDate 2025 2 1)) = true
      ↔ overlapsSpec (mkDate 2025 1 10) (mkDate 2025 1 20)
        (some (mkDate 2025 1 15)) (some (mkDate 2025 2 1)) :=
  assignment_interval_filter.1 (mkDate 2025 1 10) (mkDate 2025 1 20)
    (some (mkDate 2025 1 15)) (some (mkDate 2025 2 1)) (by decide)
    (fun b b2 hb hb2 => by
      cases hb
      cases hb2
      decide)

/-! ## Theorems: fully open assignment intervals (C9) -/

/-- C9. An assignment whose start and end dates are both absent passes
`_range_overlaps` unconditionally, so (person filter and active filter
permitting) it appears in `list_assignments_by_person` for every query
window, bounded or not. -/
theorem open_interval_assignment_matches :
    (∀ startB endB, range_overlaps none none startB endB = true)
    ∧ (∀ assignments pid startO endO activeOnly (a : Assignment),
        a ∈ assignments → a.personId = some pid → (activeOnly = true → a.isActive = true) →
        a.startDate = none → a.endDate = none →
        a ∈ list_assignments_by_person assignments pid startO endO activeOnly) := by
  refine ⟨fun _ _ => rfl, ?_⟩
  intro assignments pid startO endO activeOnly a ha hpid hact hsd hed
  unfold list_assignments_by_person
  rw [List.mem_filter]
  refine ⟨ha, ?_⟩
  rw [hpid, hsd, hed]
  simp [range_overlaps]
  cases activeOnly
  · simp
  · simp [hact rfl]

/-- C9 witness: a concrete assignment with both dates absent is returned by
`list_assignments_by_person` under the bounded window [2025-01-01,
2025-12-31]. -/
theorem open_interval_assignment_matches_witness :
    Assignment.mk (some 7) none none false none none
      ∈ list_assignments_by_person [Assignment.mk (some 7) none none false none none] 7
          (some (mkDate 2025 1 1)) (some (mkDate 2025 12 31)) false :=
  open_interval_assignment_matches.2 _ 7 _ _ false _ (List.mem_singleton.mpr rfl) rfl
    (fun h => by cases h) rfl rfl

/-! ## Theorems: missing dates in the point-in-time filters (C5) -/

/-- C5 counterexample: a record whose date string is present but not
parsable does not make the bounded `list_actuals_by_date_range` call return
normally; the call fails with the date-parse error instead of omitting the
record. -/
theorem actuals_malformed_date_errors :
    list_actuals_by_date_range [ActualRec.mk none none none (some "not-a-date")]
        "2025-01-01" "2025-12-31" none none
      = Except.error "Invalid isoformat string: not-a-date" := by
  rfl

/-- C5 as amended: a record whose date field is absent (or empty, hence
parsed to no date) never matches: `_in_range` rejects a missing date against
any window, every record of a normally returned result has a present,
parsable, in-range date, and a missing-date record alone yields a normal
empty result rather than an error.  (A malformed non-empty date string
instead raises, see the counterexample.) -/
theorem actuals_missing_date_skipped :
    (∀ startO endO, in_range none startO endO = false)
    ∧ (∀ startD endD pid prid recs res,
        actuals_range_filter startD endD pid prid recs = Except.ok res →
        ∀ r ∈ res, ∃ d, to_date r.date = Except.ok (some d)
          ∧ in_range (some d) startD endD = true)
    ∧ (∀ r : ActualRec, r.date = none ∨ r.date = some "" →
        ∀ startD endD pid prid,
          actuals_range_filter startD endD pid prid [r] = Except.ok []) := by
  refine ⟨fun _ _ => rfl, ?_, ?_⟩
  · intro startD endD pid prid recs
    induction recs with
    | nil =>
      intro res h r hr
      unfold actuals_range_filter at h
      cases h
      simp at hr
    | cons a rest ih =>
      intro res h r hr
      unfold actuals_range_filter at h
      split at h
      · exact ih res h r hr
      · split at h
        · exact ih res h r hr
        · split at h
          next msg hd => cases h
          next d hd =>
            split at h
            next msg2 ht => cases h
            next tail ht =>
              split at h
              next hin =>
                injection h with h3
                subst h3
                rcases List.mem_cons.mp hr with hra | hrt
                · subst hra
                  cases d with
                  | none => exact absurd hin (by simp [in_range])
                  | some d0 => exact ⟨d0, hd, hin⟩
                · exact ih tail ht r hrt
              next hin =>
                injection h with h3
                subst h3
                exact ih tail ht r hr
  · intro r hdate startD endD pid prid
    have hd : to_date r.date = Except.ok none := by
      rcases hdate with h | h <;> simp [to_date, h]
    unfold actuals_range_filter
    split
    · rfl
    · split
      · rfl
      · rw [hd]
        simp [actuals_range_filter, in_range]

/-- C5 witness: the missing-date rejection and the normal empty result at
concrete inputs, and a successful bounded run whose surviving record indeed
has a parsable in-range date. -/
theorem actuals_missing_date_skipped_witness :
    in_range none (some (mkDate 2025 1 1)) (some (mkDate 2025 12 31)) = false
    ∧ actuals_range_filter (some (mkDate 2025 1 1)) (some (mkDate 2025 12 31)) none none
        [ActualRec.mk none none none none] = Except.ok []
    ∧ (∃ d, to_date (ActualRec.mk none none none (some "2025-06-15")).date
          = Except.ok (some d)
        ∧ in_range (some d) (some (mkDate 2025 1 1)) (some (mkDate 2025 12 31)) = true) :=
  ⟨actuals_missing_date_skipped.1 _ _,
    actuals_missing_date_skipped.2.2 _ (Or.inl rfl) _ _ _ _,
    actuals_missing_date_skipped.2.1 (some (mkDate 2025 1 1)) (some (mkDate 2025 12 31))
      none none [ActualRec.mk none none none (some "2025-06-15")]
      [ActualRec.mk none none none (some "2025-06-15")] (by rfl)
      (ActualRec.mk none none none (some "2025-06-15")) (List.mem_singleton.mpr rfl)⟩

/-! ## Theorems: people lookup display names (C7) -/

theorem lookupAssoc_insertAssoc_self {α β : Type} [DecidableEq α] (m : List (α × β))
    (k : α) (v : β) : lookupAssoc (insertAssoc m k v) k = some v := by
  induction m with
  | nil => simp [insertAssoc, lookupAssoc]
  | cons kv rest ih =>
    rcases kv with ⟨k0, v0⟩
    by_cases h : k0 = k
    · subst h
      simp [insertAssoc, lookupAssoc]
    · simp [insertAssoc, lookupAssoc, h, ih]

theorem lookupAssoc_insertAssoc_ne {α β : Type} [DecidableEq α] (m : List (α × β))
    (k k2 : α) (v : β) (h : k2 ≠ k) :
    lookupAssoc (insertAssoc m k v) k2 = lookupAssoc m k2 := by
  induction m with
  | nil => simp [insertAssoc, lookupAssoc, Ne.symm h]
  | cons kv rest ih =>
    rcases kv with ⟨k0, v0⟩
    by_cases h0 : k0 = k
    · subst h0
      simp [insertAssoc, lookupAssoc, Ne.symm h]
    · by_cases h2 : k0 = k2
      · subst h2
        simp [insertAssoc, lookupAssoc, h0]
      · simp [insertAssoc, lookupAssoc, h0, h2, ih]

theorem people_lookup_foldl_not_mem (people : List Person) (k : ℤ)
    (h : k ∉ people.map Person.id) :
    ∀ m, lookupAssoc (people.foldl (fun m p => insertAssoc m p.id (display_name p)) m) k
      = lookupAssoc m k := by
  induction people with
  | nil => intro m; rfl
  | cons q rest ih =>
    intro m
    simp only [List.map_cons, List.mem_cons, not_or] at h
    rw [List.foldl_cons, ih h.2, lookupAssoc_insertAssoc_ne _ _ _ _ h.1]

theorem people_lookup_foldl_mem (people : List Person) (p : Person)
    (hp : p ∈ people) (hids : (people.map Person.id).Nodup) :
    ∀ m, lookupAssoc (people.foldl (fun m p => insertAssoc m p.id (display_name p)) m) p.id
      = some (display_name p) := by
  induction people with
  | nil => cases hp
  | cons q rest ih =>
    intro m
    rw [List.map_cons, List.nodup_cons] at hids
    rw [List.foldl_cons]
    rcases List.mem_cons.mp hp with hq | hrest
    · subst hq
      rw [people_lookup_foldl_not_mem rest p.id hids.1]
      exact lookupAssoc_insertAssoc_self m p.id (display_name p)
    · exact ih hrest hids.2 _

/-- C7. With distinct person ids, `people_lookup` maps each drained person's
id to the display name made by joining the stripped first and last names
with a space and stripping the result, and to the person's email when both
stripped name parts are empty. -/
theorem people_lookup_display_names (people : List Person)
    (hids : (people.map Person.id).Nodup) (p : Person) (hp : p ∈ people) :
    lookupAssoc (people_lookup people) p.id
      = some
          (if pyStrip (pyStrip (p.firstName.getD "") ++ " " ++ pyStrip (p.lastName.getD ""))
              = ""
           then p.email
           else pyStrip (pyStrip (p.firstName.getD "") ++ " " ++ pyStrip (p.lastName.getD "")))
    ∧ (pyStrip (p.firstName.getD "") = "" → pyStrip (p.lastName.getD "") = "" →
        lookupAssoc (people_lookup people) p.id = some p.email) := by
  have hmain : lookupAssoc (people_lookup people) p.id = some (display_name p) :=
    people_lookup_foldl_mem people p hp hids []
  refine ⟨hmain, ?_⟩
  intro h1 h2
  rw [hmain]
  unfold display_name
  rw [h1, h2]
  rfl

/-- C7 witness: a two-person drain with distinct ids; the first person's
name parts join and strip to "Ada Lovelace", the second person's parts are
blank so the mapping falls back to the email. -/
theorem people_lookup_display_names_witness :
    lookupAssoc (people_lookup
        [Person.mk 1 (some " Ada ") (some "Lovelace ") "ada@example.com",
         Person.mk 2 (some "  ") (some "") "bob@example.com"]) 1
      = some "Ada Lovelace"
    ∧ lookupAssoc (people_lookup
        [Person.mk 1 (some " Ada ") (some "Lovelace ") "ada@example.com",
         Person.mk 2 (some "  ") (some "") "bob@example.com"]) 2
      = some "bob@example.com" := by
  constructor
  · have h := (people_lookup_display_names
      [Person.mk 1 (some " Ada ") (some "Lovelace ") "ada@example.com",
       Person.mk 2 (some "  ") (some "") "bob@example.com"] (by decide)
      (Person.mk 1 (some " Ada ") (some "Lovelace ") "ada@example.com") (by simp)).1
    rw [h]
    rfl
  · exact (people_lookup_display_names
      [Person.mk 1 (some " Ada ") (some "Lovelace ") "ada@example.com",
       Person.mk 2 (some "  ") (some "") "bob@example.com"] (by decide)
      (Person.mk 2 (some "  ") (some "") "bob@example.com") (by simp)).2
      (by decide) (by decide)

/-! ## Theorems: response handling of a successful request (C8) -/

/-- C8. On any successful (2xx) response, `request` returns `{status_code}`
exactly when the status is 204 (checked first, even for a JSON
content-type), the parsed JSON body when the content-type contains
"application/json", and `{status_code, text}` otherwise — three exhaustive
cases in that order. -/
theorem request_response_cases {α : Type} (resp : HttpResponse α)
    (_h2xx : 200 ≤ resp.status_code ∧ resp.status_code < 300) :
    (resp.status_code = 204 → request_response resp = ReqResult.statusOnly 204)
    ∧ (resp.status_code ≠ 204 →
        containsSub resp.content_type.data "application/json".data = true →
        request_response resp = ReqResult.jsonValue resp.body_json)
    ∧ (resp.status_code ≠ 204 →
        containsSub resp.content_type.data "application/json".data = false →
        request_response resp = ReqResult.statusText resp.status_code resp.text) := by
  refine ⟨?_, ?_, ?_⟩
  · intro h
    simp [request_response, h]
  · intro h hc
    simp [request_response, h, hc]
  · intro h hc
    simp [request_response, h, hc]

/-- C8 witness: a 204 response with a JSON content-type still yields
`{status_code: 204}`, a 200 JSON response yields the parsed body, and a 200
plain-text response yields `{status_code, text}`. -/
theorem request_response_cases_witness :
    request_response (HttpResponse.mk 204 "application/json" (0 : ℕ) "")
      = ReqResult.statusOnly 204
    ∧ request_response (HttpResponse.mk 200 "application/json; charset=utf-8" (5 : ℕ) "x")
      = ReqResult.jsonValue 5
    ∧ request_response (HttpResponse.mk 200 "text/plain" (0 : ℕ) "hello")
      = ReqResult.statusText 200 "hello" :=
  ⟨(request_response_cases (HttpResponse.mk 204 "application/json" (0 : ℕ) "")
      (by decide)).1 rfl,
    (request_response_cases (HttpResponse.mk 200 "application/json; charset=utf-8" (5 : ℕ) "x")
      (by decide)).2.1 (by decide) (by decide),
    (request_response_cases (HttpResponse.mk 200 "text/plain" (0 : ℕ) "hello")
      (by decide)).2.2 (by decide) (by decide)⟩

/-! ## Theorems: the billable_hours tool's truthiness filter (C10) -/

/-- C10. The `billable_hours` row filter tests its id arguments for
truthiness, so an id argument of 0 behaves exactly like passing no filter,
for both project and person; by contrast, the `is not None` person filter of
`list_actuals_by_date_range` honours an id of 0 and selects only the records
with person id 0. -/
theorem billable_hours_zero_id_no_filter :
    (∀ rows pid, billable_hours_tool_filter rows (some 0) pid
        = billable_hours_tool_filter rows none pid)
    ∧ (∀ rows prid, billable_hours_tool_filter rows prid (some 0)
        = billable_hours_tool_filter rows prid none)
    ∧ (∀ rows, billable_hours_tool_filter rows (some 0) (some 0) = rows)
    ∧ list_actuals_by_date_range
        [ActualRec.mk (some 0) none none (some "2025-03-05"),
         ActualRec.mk (some 1) none none (some "2025-03-05")]
        "2025-01-01" "2025-12-31" (some 0) none
      = Except.ok [ActualRec.mk (some 0) none none (some "2025-03-05")] := by
  refine ⟨?_, ?_, ?_, by rfl⟩
  · intro rows pid
    unfold billable_hours_tool_filter billable_hours_matches intTruthy
    simp
  · intro rows prid
    unfold billable_hours_tool_filter billable_hours_matches intTruthy
    simp
  · intro rows
    unfold billable_hours_tool_filter billable_hours_matches intTruthy
    simp

end Runn
